import Mathlib

/-!
Shallow embedding of the polynomial-algebra core of the repository:
the monomial-based `Polynomial` engine (src/drake/util/Polynomial.cpp)
and the trigonometric layer `TrigPoly` (src/drake/util/TrigPoly.h).

Modelling conventions:
* C++ `double` coefficients are modelled as exact rationals (`ℚ`);
  all claims about coefficient values are within-tolerance claims, so
  exact equality over `ℚ` settles them.
* `VarType` and `PowerType` are modelled as `Nat`.  All encodings the
  claims touch stay far below `2 ^ 32`, and the encoder's explicit
  range guards (faithfully modelled) prevent overflow, so no modular
  reduction is needed.
* C++ exceptions become `Except PolyError`; each distinct throw site
  gets a distinct constructor.  Code paths that are undefined behaviour
  in C++ (out-of-range element access, pointer arithmetic on a null
  `strchr` result) are modelled by the `undefinedBehavior` constructor.
-/

namespace Drake

/-- Modelled from the spec: the error kinds of section 7 of the spec
(`InvalidNameError`, `IdOverflowError`, `UnknownVariableError`,
`UnsupportedOperationError`, `UnmappedVariableError`,
`UnsupportedDegreeError`, `UnsupportedCoefficientError`, and the
`InvalidDegreeError` of the TrigPoly three-polynomial constructor),
one constructor per distinct C++ throw site.  `invalidName` is the
spec's `InvalidNameError`; the code under src/ never raises it.
`undefinedBehavior` marks C++ undefined-behaviour paths. -/
inductive PolyError where
  | notUnivariate
  | unknownVariable
  | invalidName
  | nameTooBig
  | idOverflow
  | indexNonPositive
  | unmappedVariable
  | unsupportedDegree
  | unsupportedCoefficient
  | invalidDegree
  | undefinedBehavior
deriving DecidableEq, Repr

/-- Modelled from the spec: `VarType` is declared in the missing header
`Polynomial.h`; the spec calls it "an opaque integer".  It is modelled
as `Nat`; `varTypeMax` below fixes its representable range as that of
the 32-bit unsigned integer the naming guards of `Polynomial.cpp`
compute with (`std::numeric_limits<VarType>::max()`). -/
abbrev VarType := Nat

/-- Modelled from the spec: the power type of a term, a non-negative
integer (powers are always at least 1 for well-formed terms). -/
abbrev PowerType := Nat

/-- A term: one (variable, power) pair (`Polynomial::Term`). -/
structure Term where
  var : VarType
  power : PowerType
deriving DecidableEq, Repr

/-- A monomial: coefficient plus term list (`Polynomial::Monomial`). -/
structure Monomial where
  coefficient : ℚ
  terms : List Term
deriving DecidableEq, Repr

/-- A polynomial: monomial list plus the cached univariate flag
(`Polynomial`, fields `monomials` and `is_univariate`). -/
structure Polynomial where
  monomials : List Monomial
  is_univariate : Bool
deriving DecidableEq, Repr

/-- Polynomial.cpp lines 8-20, `Monomial::hasSameExponents`: same term
count and every term of `this` found (by term equality) in `other`. -/
def Monomial.hasSameExponents (m other : Monomial) : Bool :=
  decide (m.terms.length = other.terms.length) &&
    m.terms.all (fun t => other.terms.any (fun u => decide (u = t)))

/-- Replace the element at index `i` (no-op out of range), mirroring
indexed vector assignment. -/
def listModify (l : List α) (i : Nat) (f : α → α) : List α :=
  match l, i with
  | [], _ => []
  | a :: as, 0 => f a :: as
  | a :: as, n + 1 => a :: listModify as n f

/-- One iteration (at index `i`) of the loop of
`Polynomial::makeMonomialsUnique` (Polynomial.cpp lines 542-567):
update the univariate flag from monomial `i`, then scan indices
`j < i - 1` for a monomial with the same exponents; on the first match
add coefficient `i` into `j` and erase index `i`. -/
def mmuIter (ms : List Monomial) (univ : Bool) (uvar : VarType) (i : Nat) :
    List Monomial × Bool × VarType :=
  match ms[i]? with
  | none => (ms, univ, uvar)
  | some mi =>
    let fl : Bool × VarType :=
      match mi.terms with
      | [] => (univ, uvar)
      | t :: rest =>
        let univ1 := if rest.length + 1 > 1 then false else univ
        if t.var ≠ uvar then
          if uvar > 0 then (false, uvar) else (univ1, t.var)
        else (univ1, uvar)
    match (List.range (i - 1)).find? (fun j =>
        match ms[j]? with
        | some mj => mi.hasSameExponents mj
        | none => false) with
    | some j =>
      ((listModify ms j (fun mj =>
          { mj with coefficient := mj.coefficient + mi.coefficient })).eraseIdx i,
       fl.1, fl.2)
    | none => (ms, fl.1, fl.2)

/-- The loop of `makeMonomialsUnique`, run for indices
`i = n - 1, ..., 1, 0` (called with `n = ms.length`). -/
def mmuLoop : Nat → List Monomial → Bool → VarType → List Monomial × Bool
  | 0, ms, univ, _ => (ms, univ)
  | i + 1, ms, univ, uvar =>
    let st := mmuIter ms univ uvar i
    mmuLoop i st.1 st.2.1 st.2.2

/-- Polynomial.cpp lines 542-567, `Polynomial::makeMonomialsUnique`. -/
def Polynomial.makeMonomialsUnique (p : Polynomial) : Polynomial :=
  let st := mmuLoop p.monomials.length p.monomials p.is_univariate 0
  ⟨st.1, st.2⟩

/-- Polynomial.cpp lines 22-28, scalar constructor. -/
def Polynomial.ofScalar (c : ℚ) : Polynomial :=
  ⟨[⟨c, []⟩], true⟩

/-- The loop of the coefficient+terms constructor (Polynomial.cpp lines
30-52): downward over indices, update the univariate flag, then merge
term `i` into the first earlier same-variable term among `j < i - 1`. -/
def ctorTermsLoop : Nat → List Term → Bool → List Term × Bool
  | 0, ts, univ => (ts, univ)
  | i + 1, ts, univ =>
    match ts[i]? with
    | none => ctorTermsLoop i ts univ
    | some ti =>
      let univ' := if i > 0 ∧ ti.var ≠ (ts.headD ti).var then false else univ
      match (List.range (i - 1)).find? (fun j =>
          match ts[j]? with
          | some tj => decide (tj.var = ti.var)
          | none => false) with
      | some j =>
        ctorTermsLoop i
          ((listModify ts j (fun tj => { tj with power := tj.power + ti.power })).eraseIdx i)
          univ'
      | none => ctorTermsLoop i ts univ'

/-- Polynomial.cpp lines 30-52, the coefficient + term-list
constructor. -/
def Polynomial.ofCoeffTerms (c : ℚ) (ts : List Term) : Polynomial :=
  let st := ctorTermsLoop ts.length ts true
  ⟨[⟨c, st.1⟩], st.2⟩

/-- Polynomial.cpp lines 54-68, the monomial-range constructor: copy the
monomials, then `makeMonomialsUnique` (starting from flag `true`). -/
def Polynomial.ofMonomials (ms : List Monomial) : Polynomial :=
  Polynomial.makeMonomialsUnique ⟨ms, true⟩

/-- Polynomial.cpp lines 83-94, coefficient + single-variable
constructor (a single linear term). -/
def Polynomial.ofCoeffVar (c : ℚ) (v : VarType) : Polynomial :=
  ⟨[⟨c, [⟨v, 1⟩]⟩], true⟩

/-- Polynomial.cpp lines 101-107, `Monomial::getDegree`: the product of
all term powers (0 when there are no terms). -/
def Monomial.getDegree (m : Monomial) : Nat :=
  match m.terms with
  | [] => 0
  | t :: rest => rest.foldl (fun d u => d * u.power) t.power

/-- Polynomial.cpp lines 141-151, `Polynomial::getDegree`: maximum
monomial degree (0 for none). -/
def Polynomial.getDegree (p : Polynomial) : Nat :=
  p.monomials.foldl (fun mx m => max mx m.getDegree) 0

/-- Polynomial.cpp lines 153-160, `Polynomial::getSimpleVariable`:
the single variable if the polynomial is exactly one monomial with one
power-1 term, else 0. -/
def Polynomial.getSimpleVariable (p : Polynomial) : VarType :=
  match p.monomials with
  | [m] =>
    match m.terms with
    | [t] => if t.power = 1 then t.var else 0
    | _ => 0
  | _ => 0

/-- Polynomial.cpp lines 168-187, `Polynomial::getCoefficients`: dense
coefficient vector of size degree+1, zero-filled, each monomial ASSIGNED
(not accumulated) at index `terms[0].power` (0 for a constant). -/
def Polynomial.getCoefficients (p : Polynomial) : Except PolyError (List ℚ) :=
  if !p.is_univariate then .error .notUnivariate
  else
    .ok (p.monomials.foldl (fun v m =>
      match m.terms with
      | [] => v.set 0 m.coefficient
      | t :: _ => v.set t.power m.coefficient)
      (List.replicate (p.getDegree + 1) 0))

/-- Polynomial.cpp lines 221-231, `Polynomial::subs`: replace every
occurrence of variable `orig` by `replacement`. -/
def Polynomial.subs (p : Polynomial) (orig replacement : VarType) : Polynomial :=
  ⟨p.monomials.map (fun m =>
    ⟨m.coefficient, m.terms.map (fun t =>
      if t.var = orig then ⟨replacement, t.power⟩ else t)⟩),
   p.is_univariate⟩

/-- One step of the term loop of `Polynomial::evaluatePartial`
(Polynomial.cpp lines 208-214): an assigned term multiplies
`value ^ power` into the accumulated coefficient, an unassigned term is
appended to the accumulated kept terms. -/
def epStep (vals : List (VarType × ℚ)) (acc : ℚ × List Term) (t : Term) :
    ℚ × List Term :=
  match vals.find? (fun kv => decide (kv.1 = t.var)) with
  | some kv => (acc.1 * kv.2 ^ t.power, acc.2)
  | none => (acc.1, acc.2 ++ [t])

/-- Per-monomial body of `Polynomial::evaluatePartial` (Polynomial.cpp
lines 205-216): fold `epStep` over the monomial's terms. -/
def evalPartialMonomial (vals : List (VarType × ℚ)) (m : Monomial) : Monomial :=
  let st := m.terms.foldl (epStep vals) (m.coefficient, [])
  ⟨st.1, st.2⟩

/-- Polynomial.cpp lines 201-219, `Polynomial::evaluatePartial`:
substitute the assigned monomials, then rebuild the result through the
monomial-range constructor. -/
def Polynomial.evaluatePartial (p : Polynomial) (vals : List (VarType × ℚ)) :
    Polynomial :=
  Polynomial.ofMonomials (p.monomials.map (evalPartialMonomial vals))

/-- The claim's (and spec's) description of the per-monomial effect of
partial evaluation, stated independently of the source's fold: the
factor contributed by one term, namely `value ^ power` for an assigned
term and 1 for an unassigned one. -/
def claimSubstFactor (vals : List (VarType × ℚ)) (t : Term) : ℚ :=
  match vals.find? (fun kv => decide (kv.1 = t.var)) with
  | some kv => kv.2 ^ t.power
  | none => 1

/-- The claim's (and spec's) description of the per-monomial effect of
partial evaluation: every assigned term's `value ^ power` multiplied
into the coefficient and the assigned terms removed. -/
def claimSubstMonomial (vals : List (VarType × ℚ)) (m : Monomial) : Monomial :=
  ⟨m.coefficient * (m.terms.map (claimSubstFactor vals)).prod,
   m.terms.filter (fun t =>
     (vals.find? (fun kv => decide (kv.1 = t.var))).isNone)⟩

/-- Polynomial.cpp lines 294-303, `Polynomial::operator+=` (and the
value-returning `operator+` of lines 410-416 built on it): append the
other polynomial's monomials and re-run `makeMonomialsUnique`. -/
def Polynomial.addPoly (p other : Polynomial) : Polynomial :=
  Polynomial.makeMonomialsUnique ⟨p.monomials ++ other.monomials, p.is_univariate⟩

/-- Polynomial.cpp lines 305-315, `Polynomial::operator-=` (and the
value-returning `operator-`): append the other polynomial's monomials
negated and re-run `makeMonomialsUnique`. -/
def Polynomial.subPoly (p other : Polynomial) : Polynomial :=
  Polynomial.makeMonomialsUnique
    ⟨p.monomials ++ other.monomials.map (fun m => ⟨m.coefficient * (-1), m.terms⟩),
     p.is_univariate⟩

/-- The term-merging inner loop of `Polynomial::operator*=`
(Polynomial.cpp lines 330-342): add the power of `t` into the first
same-variable term, else append `t`. -/
def mergeTermIntoList (ts : List Term) (t : Term) : List Term :=
  match ts with
  | [] => [t]
  | u :: us =>
    if u.var = t.var then { u with power := u.power + t.power } :: us
    else u :: mergeTermIntoList us t

/-- Product of two monomials (body of the double loop of
`Polynomial::operator*=`): multiply coefficients and merge the second
monomial's terms into the first's. -/
def Monomial.mulM (a b : Monomial) : Monomial :=
  ⟨a.coefficient * b.coefficient, b.terms.foldl mergeTermIntoList a.terms⟩

/-- Polynomial.cpp lines 317-350, `Polynomial::operator*=` (and the
value-returning `operator*`): Cartesian product of monomials, then
`makeMonomialsUnique`. -/
def Polynomial.mulPoly (p other : Polynomial) : Polynomial :=
  Polynomial.makeMonomialsUnique
    ⟨(p.monomials.map (fun a => other.monomials.map (fun b => a.mulM b))).flatten,
     p.is_univariate⟩

/-- The scan of `Polynomial::operator-=(scalar)` (Polynomial.cpp lines
371-388): subtract from the first constant monomial, else append a new
constant monomial of `-s`. -/
def subScalarLoop (s : ℚ) : List Monomial → List Monomial
  | [] => [⟨-s, []⟩]
  | m :: rest =>
    match m.terms with
    | [] => ⟨m.coefficient - s, []⟩ :: rest
    | _ => m :: subScalarLoop s rest

/-- Polynomial.cpp lines 371-388, `Polynomial::operator-=(scalar)` (and
the value-returning form). -/
def Polynomial.subScalar (p : Polynomial) (s : ℚ) : Polynomial :=
  ⟨subScalarLoop s p.monomials, p.is_univariate⟩

/-- Polynomial.cpp lines 390-398, `Polynomial::operator*=(scalar)`:
scale every coefficient; the flag is untouched. -/
def Polynomial.mulScalar (p : Polynomial) (s : ℚ) : Polynomial :=
  ⟨p.monomials.map (fun m => ⟨m.coefficient * s, m.terms⟩), p.is_univariate⟩

/-- The coefficient/power update loop of `Polynomial::derivative`
(Polynomial.cpp lines 246-250): `order` times, multiply the coefficient
by the current leading power and decrement that power. -/
def derivMonoLoop : Nat → ℚ → Nat → ℚ × Nat
  | 0, c, pw => (c, pw)
  | k + 1, c, pw => derivMonoLoop k (c * (pw : ℚ)) (pw - 1)

/-- The per-monomial body of `Polynomial::derivative`: monomials with no
terms or insufficient leading power vanish; otherwise run the update
loop and drop the leading term if its power reached zero. -/
def derivMono (order : Nat) (m : Monomial) : Option Monomial :=
  match m.terms with
  | [] => none
  | t :: ts =>
    if order ≤ t.power then
      let r := derivMonoLoop order m.coefficient t.power
      some ⟨r.1, if r.2 < 1 then ts else ⟨t.var, r.2⟩ :: ts⟩
    else none

/-- Polynomial.cpp lines 233-257, `Polynomial::derivative`: univariate
only; the result's flag is set to `true`. -/
def Polynomial.derivative (p : Polynomial) (order : Nat) :
    Except PolyError Polynomial :=
  if !p.is_univariate then .error .notUnivariate
  else .ok ⟨p.monomials.filterMap (derivMono order), true⟩

/-- The monomial loop of `Polynomial::integral` (Polynomial.cpp lines
267-286), processing `pending` with the already-updated prefix `done`:
a constant monomial gets a power-1 term on the first variable found in
the current (partially updated) monomial list, failing when that scan
yields no variable (or variable 0); a non-constant monomial has its
coefficient divided by (leading power + 1) and that power bumped.
This helper is the variable scan (Polynomial.cpp lines 270-279). -/
def integFindVar (l : List Monomial) : VarType :=
  match l.find? (fun mb => !mb.terms.isEmpty) with
  | some mb => (mb.terms.headD (Term.mk 0 0)).var
  | none => 0

/-- The monomial loop of `Polynomial::integral` (Polynomial.cpp lines
267-286), processing `pending` with the already-updated prefix `done`;
the constant-monomial case scans via `integFindVar`. -/
def integLoop : List Monomial → List Monomial → Except PolyError (List Monomial)
  | done, [] => .ok done
  | done, m :: pending =>
    match m.terms with
    | [] =>
      let v : VarType := integFindVar (done ++ m :: pending)
      if v < 1 then .error .unknownVariable
      else integLoop (done ++ [⟨m.coefficient, [⟨v, 1⟩]⟩]) pending
    | t :: ts =>
      integLoop
        (done ++ [⟨m.coefficient / ((t.power : ℚ) + 1), ⟨t.var, t.power + 1⟩ :: ts⟩])
        pending

/-- Polynomial.cpp lines 259-292, `Polynomial::integral`: univariate
only; after the loop a constant monomial holding the integration
constant is appended and the flag is set to `true`. -/
def Polynomial.integral (p : Polynomial) (c : ℚ) : Except PolyError Polynomial :=
  if !p.is_univariate then .error .notUnivariate
  else (integLoop [] p.monomials).map (fun ms => ⟨ms ++ [⟨c, []⟩], true⟩)

/-- Polynomial.cpp line 488: the 30-character naming alphabet. -/
def kNameChars : List Char := "@#_.abcdefghijklmnopqrstuvwxyz".toList

/-- Polynomial.cpp line 491: `(kNumNameChars + 1) ^ kNameLength`. -/
def kMaxNamePart : Nat := 923521

/-- Modelled from the spec: the maximum value of `VarType` ("an opaque
integer" whose encodings "exceed the representable range" beyond it; the
header declaring the concrete type is not under src/).  Taken as the
32-bit unsigned maximum used by `std::numeric_limits` in the guards. -/
def varTypeMax : Nat := 2 ^ 32 - 1

/-- Polynomial.cpp line 515: the largest accepted index `m`. -/
def maxId : Nat := varTypeMax / 2 / kMaxNamePart

/-- Scan of a C string for a character, returning the offset of the
first occurrence; the NUL terminator (which `strchr` also finds, at
offset `length`) is reached when the list is exhausted. -/
def strchrAux : List Char → Char → Option Nat
  | [], c => if c = Char.ofNat 0 then some 0 else none
  | a :: as, c => if c = a then some 0 else (strchrAux as c).map (· + 1)

/-- The result of C++ `strchr(kNameChars, c)` as an offset: the index of
the first occurrence of `c` in the alphabet, the terminator offset 30
for the NUL character, and `none` (a null pointer) otherwise. -/
def strchrIndex (c : Char) : Option Nat :=
  strchrAux kNameChars c

/-- Polynomial.cpp lines 493-500, `Polynomial::isValidVariableName`:
nonempty and every character found by `strchr` in the alphabet. -/
def isValidVariableName (name : String) : Bool :=
  decide (1 ≤ name.toList.length) &&
    name.toList.all (fun c => (strchrIndex c).isSome)

/-- The accumulation loop of `Polynomial::variableNameToId`
(Polynomial.cpp lines 506-513): positional radix-31 value of the name,
each character contributing `offset + 1`; `none` when `strchr` misses
(null-pointer arithmetic, undefined behaviour in the source). -/
def encodeNamePart : List Char → Option Nat
  | [] => some 0
  | c :: rest =>
    match strchrIndex c, encodeNamePart rest with
    | some o, some r => some ((o + 1) * 31 ^ rest.length + r)
    | _, _ => none

/-- Polynomial.cpp lines 502-519, `Polynomial::variableNameToId`: encode
the name, guard the name part, the index range, and positivity of `m`,
then return `2 * (name_part + kMaxNamePart * (m - 1))`.  The source
performs no name-validity check; a character outside the alphabet
reaches undefined pointer arithmetic, modelled as `undefinedBehavior`. -/
def variableNameToId (name : String) (m : Nat) : Except PolyError VarType :=
  match encodeNamePart name.toList with
  | none => .error .undefinedBehavior
  | some np =>
    if np > kMaxNamePart then .error .nameTooBig
    else if m > maxId then .error .idOverflow
    else if m < 1 then .error .indexNonPositive
    else .ok (2 * (np + kMaxNamePart * (m - 1)))

/-- Polynomial.cpp lines 521-540, `Polynomial::idToVariableName`: split
`id / 2` into name part and index, extract the four radix-31 digits most
significant first, print the alphabet character of each nonzero digit
(falling back to the first alphabet character when all digits are zero),
and append the decimal index plus one. -/
def idToVariableName (id : VarType) : String :=
  let np := (id / 2) % kMaxNamePart
  let m := id / 2 / kMaxNamePart
  let ds := [np / 29791 % 31, np / 961 % 31, np / 31 % 31, np % 31]
  let cs := (ds.filter (fun d => decide (0 < d))).map
    (fun d => kNameChars.getD (d - 1) '@')
  let cs' := if cs.isEmpty then ['@'] else cs
  String.mk cs' ++ Nat.repr (m + 1)

/-- Polynomial.cpp lines 70-81, the named-variable constructor
(`Polynomial(varname, num)`): a single linear term, coefficient 1, on
the encoded variable identifier. -/
def Polynomial.ofName (name : String) (num : Nat) : Except PolyError Polynomial :=
  (variableNameToId name num).map (fun v => Polynomial.ofCoeffVar 1 v)

/-- TrigPoly.h lines 38-41, `TrigPoly::SinCosVars`: the sine and cosine
placeholder variables of one angle variable. -/
structure SinCosVars where
  s : VarType
  c : VarType
deriving DecidableEq, Repr

/-- TrigPoly.h line 42, `TrigPoly::SinCosMap` (`std::map`), modelled as
an association list with unique keys; only lookup, keep-existing insert
and overwrite assignment are used by the source. -/
abbrev SinCosMap := List (VarType × SinCosVars)

/-- Lookup (`std::map::find`): the value at key `k`, if present. -/
def scmFind (m : SinCosMap) (k : VarType) : Option SinCosVars :=
  match m with
  | [] => none
  | kv :: rest => if kv.1 = k then some kv.2 else scmFind rest k

/-- Single-element `std::map::insert`: add `(k, v)` only when key `k`
is not already present. -/
def scmInsertKeep (m : SinCosMap) (k : VarType) (v : SinCosVars) : SinCosMap :=
  match m with
  | [] => [(k, v)]
  | kv :: rest =>
    if kv.1 = k then kv :: rest else kv :: scmInsertKeep rest k v

/-- `std::map::operator[]` assignment: overwrite or add `(k, v)`. -/
def scmSet (m : SinCosMap) (k : VarType) (v : SinCosVars) : SinCosMap :=
  match m with
  | [] => [(k, v)]
  | kv :: rest =>
    if kv.1 = k then (k, v) :: rest else kv :: scmSet rest k v

/-- Range `std::map::insert` as used by the TrigPoly compound-assignment
operators (TrigPoly.h lines 173, 179, 185): insert every entry of `b`
into `a`, keeping `a`'s entry whenever the key is already present. -/
def scmUnion (a b : SinCosMap) : SinCosMap :=
  b.foldl (fun acc kv => scmInsertKeep acc kv.1 kv.2) a

/-- TrigPoly.h lines 33-42 and 285-287, `TrigPoly`: a polynomial plus
the sin/cos placeholder map. -/
structure TrigPoly where
  poly : Polynomial
  sin_cos_map : SinCosMap
deriving DecidableEq, Repr

/-- TrigPoly.h lines 62-72, the three-polynomial constructor
`TrigPoly(q, s, c)`: all three must have degree exactly 1; the map maps
the angle's simple variable to the placeholders' simple variables. -/
def TrigPoly.ofQSC (q s c : Polynomial) : Except PolyError TrigPoly :=
  if q.getDegree ≠ 1 ∨ s.getDegree ≠ 1 ∨ c.getDegree ≠ 1 then
    .error .invalidDegree
  else
    .ok ⟨q, scmSet [] q.getSimpleVariable
      ⟨s.getSimpleVariable, c.getSimpleVariable⟩⟩

/-- TrigPoly.h lines 171-175 and 209-213, `TrigPoly::operator+=` and the
value-returning `operator+`: add the polynomials, insert the right
operand's map entries (existing keys keep the left operand's entry). -/
def tpAdd (a b : TrigPoly) : TrigPoly :=
  ⟨a.poly.addPoly b.poly, scmUnion a.sin_cos_map b.sin_cos_map⟩

/-- TrigPoly.h lines 177-181 and 215-219, `TrigPoly::operator-=` and the
value-returning `operator-`. -/
def tpSub (a b : TrigPoly) : TrigPoly :=
  ⟨a.poly.subPoly b.poly, scmUnion a.sin_cos_map b.sin_cos_map⟩

/-- TrigPoly.h lines 183-187 and 226-230, `TrigPoly::operator*=` and the
value-returning `operator*`. -/
def tpMul (a b : TrigPoly) : TrigPoly :=
  ⟨a.poly.mulPoly b.poly, scmUnion a.sin_cos_map b.sin_cos_map⟩

/-- TrigPoly.h lines 199-202, `TrigPoly::operator*=(scalar)`: scale the
polynomial; the map is untouched. -/
def tpMulScalar (a : TrigPoly) (s : ℚ) : TrigPoly :=
  ⟨a.poly.mulScalar s, a.sin_cos_map⟩

/-- TrigPoly.h lines 87-122 and 131-169, the `sin` (`isSin = true`) and
`cos` (`isSin = false`) friend functions, fuelled by the first argument.
The source recursion strips one monomial per recursive call, so fuel
equal to the argument's monomial count (as supplied by `sinTP` and
`cosTP`) always reaches a base case before running out; fuel 0 and the
zero-monomial case (an out-of-bounds `m[0]` access in the source) are
modelled as `undefinedBehavior`.  The numeric sine and cosine applied to
constant arguments are the parameters `sinC` and `cosC`.  Degree over 1
fails; a single constant monomial is replaced by its numeric sine or
cosine; a single non-constant monomial requires a mapped first variable
and unit-magnitude coefficient and substitutes the placeholder, `cos`
negating the result when the coefficient is -1; several monomials split
off the first and apply the angle-sum identities. -/
def trigN (sinC cosC : ℚ → ℚ) : Nat → Bool → TrigPoly → Except PolyError TrigPoly
  | 0, _, _ => .error .undefinedBehavior
  | n + 1, isSin, p =>
    if p.poly.getDegree > 1 then .error .unsupportedDegree
    else
      match p.poly.monomials with
      | [] => .error .undefinedBehavior
      | [m] =>
        match m.terms with
        | [] =>
          .ok ⟨Polynomial.ofScalar
                (if isSin then sinC m.coefficient else cosC m.coefficient),
              p.sin_cos_map⟩
        | t :: _ =>
          match scmFind p.sin_cos_map t.var with
          | none => .error .unmappedVariable
          | some sc =>
            if |m.coefficient| ≠ 1 then .error .unsupportedCoefficient
            else if isSin then .ok ⟨p.poly.subs t.var sc.s, p.sin_cos_map⟩
            else
              let ret : TrigPoly := ⟨p.poly.subs t.var sc.c, p.sin_cos_map⟩
              .ok (if m.coefficient = -1 then tpMulScalar ret (-1) else ret)
      | m0 :: m1 :: rest =>
        let a : TrigPoly :=
          ⟨Polynomial.ofCoeffTerms m0.coefficient m0.terms, p.sin_cos_map⟩
        let b : TrigPoly :=
          ⟨Polynomial.ofMonomials (m1 :: rest), p.sin_cos_map⟩
        if isSin then do
          let sa ← trigN sinC cosC n true a
          let cb ← trigN sinC cosC n false b
          let ca ← trigN sinC cosC n false a
          let sb ← trigN sinC cosC n true b
          return tpAdd (tpMul sa cb) (tpMul ca sb)
        else do
          let ca ← trigN sinC cosC n false a
          let cb ← trigN sinC cosC n false b
          let sa ← trigN sinC cosC n true a
          let sb ← trigN sinC cosC n true b
          return tpSub (tpMul ca cb) (tpMul sa sb)

/-- TrigPoly.h lines 87-122, the `sin` friend function. -/
def sinTP (sinC cosC : ℚ → ℚ) (p : TrigPoly) : Except PolyError TrigPoly :=
  trigN sinC cosC p.poly.monomials.length true p

/-- TrigPoly.h lines 131-169, the `cos` friend function. -/
def cosTP (sinC cosC : ℚ → ℚ) (p : TrigPoly) : Except PolyError TrigPoly :=
  trigN sinC cosC p.poly.monomials.length false p

/-!  Helper lemmas about the sin/cos map operations. -/

theorem scmFind_insertKeep (m : SinCosMap) (k' k : VarType) (v' : SinCosVars) :
    scmFind (scmInsertKeep m k' v') k =
      match scmFind m k with
      | some w => some w
      | none => if k' = k then some v' else none := by
  induction m with
  | nil =>
    simp [scmInsertKeep, scmFind]
  | cons kv rest ih =>
    by_cases h1 : kv.1 = k'
    · by_cases h2 : kv.1 = k
      · have hk : k' = k := h1.symm.trans h2
        simp [scmInsertKeep, scmFind, h1, h2, hk]
      · have hk : ¬(k' = k) := by rw [← h1]; exact h2
        cases h : scmFind rest k <;>
          simp [scmInsertKeep, scmFind, h1, h2, h, hk]
    · by_cases h2 : kv.1 = k
      · have hk : ¬(k = k') := fun h => h1 (h2.trans h)
        simp [scmInsertKeep, scmFind, h1, h2, hk]
      · simpa [scmInsertKeep, scmFind, h1, h2] using ih

theorem scmFind_union (b a : SinCosMap) (k : VarType) :
    scmFind (scmUnion a b) k =
      match scmFind a k with
      | some w => some w
      | none => scmFind b k := by
  induction b generalizing a with
  | nil =>
    cases h : scmFind a k <;> simp [scmUnion, scmFind, h]
  | cons kv rest ih =>
    have hstep : scmUnion a (kv :: rest) = scmUnion (scmInsertKeep a kv.1 kv.2) rest := by
      simp [scmUnion]
    rw [hstep, ih, scmFind_insertKeep]
    by_cases h2 : kv.1 = k <;>
      cases h : scmFind a k <;>
        simp [scmFind, h, h2]

/-- Claim C1 (code evidence): building `Polynomial x("x")` and running
the mutating `x += x` leaves TWO monomials with identical exponent
vectors in the collection (the de-duplication scan compares only
indices `j < i - 1`, skipping the adjacent pair), so the claimed
invariant fails on this input. -/
theorem claim_C1 :
    (Polynomial.ofName "x" 1).map (fun x => (x.addPoly x).monomials) =
      .ok [⟨1, [⟨56, 1⟩]⟩, ⟨1, [⟨56, 1⟩]⟩] ∧
    Monomial.hasSameExponents ⟨1, [⟨56, 1⟩]⟩ ⟨1, [⟨56, 1⟩]⟩ = true := by
  constructor
  · rfl
  · rfl

/-- Claim C2 (code evidence): for `Polynomial x("x")` the polynomial
`(x-1)*(x-1)` has `getCoefficients()` equal to `[1, -1, 1]`, not the
claimed `[1, -2, 1]`: the two `-x` product monomials are never merged
and the dense-vector assignment overwrites instead of accumulating. -/
theorem claim_C2 :
    (do
      let x ← Polynomial.ofName "x" 1
      ((x.subScalar 1).mulPoly (x.subScalar 1)).getCoefficients) =
      Except.ok [1, -1, 1] ∧
    ([(1 : ℚ), -1, 1] ≠ [(1 : ℚ), -2, 1]) := by
  constructor
  · with_unfolding_all rfl
  · with_unfolding_all decide

/-- Claim C5 (code evidence): the name `"x$"` is invalid (the validator
`isValidVariableName` rejects it), yet `variableNameToId` performs no
validity check at all: on `"x$"` it reaches pointer arithmetic on the
null result of `strchr` (undefined behaviour), and in particular never
raises the spec's `InvalidNameError`. -/
theorem claim_C5 :
    isValidVariableName "x$" = false ∧
    variableNameToId "x$" 1 = .error .undefinedBehavior ∧
    variableNameToId "x$" 1 ≠ .error .invalidName := by
  refine ⟨rfl, rfl, ?_⟩
  rw [show variableNameToId "x$" 1 = Except.error PolyError.undefinedBehavior from rfl]
  simp

/-- Claim C8: for the TrigPoly built from `q = x`, `s = s1`, `c = c1`,
the polynomial of `cos(x + x)` is exactly `c1^2 - s1^2`, i.e. the
monomial list `[1 * c1^2, -1 * s1^2]` (variable ids 14 and 46 encode
`"c"` and `"s"` with index 1), for every numeric sine/cosine
evaluator. -/
theorem claim_C8 (sinC cosC : ℚ → ℚ) :
    (do
      let xq ← Polynomial.ofName "x" 1
      let s ← Polynomial.ofName "s" 1
      let c ← Polynomial.ofName "c" 1
      let tp ← TrigPoly.ofQSC xq s c
      let r ← cosTP sinC cosC (tpAdd tp tp)
      return r.poly.monomials) =
      Except.ok [⟨1, [⟨14, 2⟩]⟩, ⟨-1, [⟨46, 2⟩]⟩] := by
  with_unfolding_all rfl

/-- Claim C3 counterexample: for the polynomial `x*y + z + x` (variable
ids 2, 4, 6) and the assignment `y := 1`, partial evaluation does NOT
leave the two resulting `x` monomials as separate duplicate entries:
the range constructor's de-duplication pass merges them into `2*x`. -/
theorem claim_C3_counterexample :
    (Polynomial.evaluatePartial
        ⟨[⟨1, [⟨2, 1⟩, ⟨4, 1⟩]⟩, ⟨1, [⟨6, 1⟩]⟩, ⟨1, [⟨2, 1⟩]⟩], false⟩
        [(4, 1)]).monomials =
      [⟨2, [⟨2, 1⟩]⟩, ⟨1, [⟨6, 1⟩]⟩] ∧
    (Polynomial.evaluatePartial
        ⟨[⟨1, [⟨2, 1⟩, ⟨4, 1⟩]⟩, ⟨1, [⟨6, 1⟩]⟩, ⟨1, [⟨2, 1⟩]⟩], false⟩
        [(4, 1)]).monomials ≠
      [⟨1, [⟨2, 1⟩]⟩, ⟨1, [⟨6, 1⟩]⟩, ⟨1, [⟨2, 1⟩]⟩] := by
  constructor
  · with_unfolding_all rfl
  · with_unfolding_all decide

/-- Claim C4 counterexample: two TrigPolys whose maps both contain key 2
with different placeholder pairs; after `a + b` the key-2 entry is the
LEFT operand's `(4, 6)`, not the right operand's `(8, 10)` as the claim
states (`std::map::insert` keeps existing entries). -/
theorem claim_C4_counterexample :
    scmFind (tpAdd ⟨Polynomial.ofScalar 0, [(2, ⟨4, 6⟩)]⟩
        ⟨Polynomial.ofScalar 0, [(2, ⟨8, 10⟩)]⟩).sin_cos_map 2 =
      some ⟨4, 6⟩ ∧
    (some (SinCosVars.mk 4 6) ≠ some (SinCosVars.mk 8 10)) := by
  constructor
  · rfl
  · decide

/-- Claim C4 (amended): every binary TrigPoly operation unions the two
operands' sin/cos maps, and for a key present in both maps the result
keeps the entry of the LEFT operand. -/
theorem claim_C4_amended (a b : TrigPoly) (k : VarType) :
    (scmFind (tpAdd a b).sin_cos_map k =
      match scmFind a.sin_cos_map k with
      | some w => some w
      | none => scmFind b.sin_cos_map k) ∧
    (scmFind (tpSub a b).sin_cos_map k =
      match scmFind a.sin_cos_map k with
      | some w => some w
      | none => scmFind b.sin_cos_map k) ∧
    (scmFind (tpMul a b).sin_cos_map k =
      match scmFind a.sin_cos_map k with
      | some w => some w
      | none => scmFind b.sin_cos_map k) :=
  ⟨scmFind_union b.sin_cos_map a.sin_cos_map k,
   scmFind_union b.sin_cos_map a.sin_cos_map k,
   scmFind_union b.sin_cos_map a.sin_cos_map k⟩

/-- Claim C7 counterexample: for the univariate constant polynomial `5`,
`integral` does not yield a polynomial at all — it fails with the
unknown-variable error (no variable to attach the synthesized linear
term to) — so `derivative(integral(P, c)) ≈ P` fails for this
univariate `P`. -/
theorem claim_C7_counterexample :
    ((Polynomial.ofScalar 5).integral 1).bind (fun q => q.derivative 1) =
      .error .unknownVariable := by
  rfl

theorem epStep_foldl (vals : List (VarType × ℚ)) :
    ∀ (ts : List Term) (c : ℚ) (kept : List Term),
    ts.foldl (epStep vals) (c, kept) =
      (c * (ts.map (claimSubstFactor vals)).prod,
       kept ++ ts.filter (fun t =>
         (vals.find? (fun kv => decide (kv.1 = t.var))).isNone)) := by
  intro ts
  induction ts with
  | nil => intro c kept; simp
  | cons t rest ih =>
    intro c kept
    cases hf : vals.find? (fun kv => decide (kv.1 = t.var)) with
    | some kv =>
      simp [epStep, hf, ih, claimSubstFactor, List.filter_cons, mul_assoc]
    | none =>
      simp [epStep, hf, ih, claimSubstFactor, List.filter_cons]

theorem evalPartialMonomial_eq_claimSubst (vals : List (VarType × ℚ))
    (m : Monomial) :
    evalPartialMonomial vals m = claimSubstMonomial vals m := by
  unfold evalPartialMonomial claimSubstMonomial
  rw [epStep_foldl]
  simp

/-- Claim C3 (amended): `evaluatePartial` folds each assigned term's
`value ^ power` into the coefficient and removes the assigned terms,
exactly as the claim describes, but the result is rebuilt through the
monomial-range constructor, which re-runs monomial de-duplication — so
monomials whose exponent vectors became identical do not, in general,
remain as separate duplicate entries. -/
theorem claim_C3_amended (p : Polynomial) (vals : List (VarType × ℚ)) :
    p.evaluatePartial vals =
      Polynomial.ofMonomials (p.monomials.map (claimSubstMonomial vals)) := by
  unfold Polynomial.evaluatePartial
  have h : p.monomials.map (evalPartialMonomial vals) =
      p.monomials.map (claimSubstMonomial vals) :=
    List.map_congr_left (fun m _ => evalPartialMonomial_eq_claimSubst vals m)
  rw [h]

/-- Claim C9: `cos` of a TrigPoly whose polynomial is the single linear
monomial `-1 * v`, with `v` mapped to the placeholders `sc`, substitutes
the cosine placeholder and negates, returning exactly `+1 * sc.c`
(preserving that cosine is even). -/
theorem claim_C9 (sinC cosC : ℚ → ℚ) (v : VarType) (sc : SinCosVars)
    (M : SinCosMap) (flag : Bool) (h : scmFind M v = some sc) :
    cosTP sinC cosC ⟨⟨[⟨-1, [⟨v, 1⟩]⟩], flag⟩, M⟩ =
      .ok ⟨⟨[⟨1, [⟨sc.c, 1⟩]⟩], flag⟩, M⟩ := by
  simp [cosTP, trigN, Polynomial.getDegree, Monomial.getDegree, h,
        Polynomial.subs, tpMulScalar, Polynomial.mulScalar]

theorem claim_C9_witness :
    scmFind [(2, SinCosVars.mk 4 6)] 2 = some (SinCosVars.mk 4 6) ∧
    cosTP (fun _ => 0) (fun _ => 0)
        ⟨⟨[⟨-1, [⟨2, 1⟩]⟩], true⟩, [(2, SinCosVars.mk 4 6)]⟩ =
      .ok ⟨⟨[⟨1, [⟨6, 1⟩]⟩], true⟩, [(2, SinCosVars.mk 4 6)]⟩ :=
  ⟨rfl, claim_C9 (fun _ => 0) (fun _ => 0) 2 (SinCosVars.mk 4 6)
    [(2, SinCosVars.mk 4 6)] true rfl⟩

/-- Claim C10: `sin` of a TrigPoly whose polynomial is the single
monomial `x * y` (two distinct power-1 variables, both mapped) does not
raise the unsupported-degree error — the monomial's degree is the
PRODUCT `1 * 1 = 1` of its term powers — and substitutes only the first
term's variable by its sine placeholder, keeping the other term. -/
theorem claim_C10 (sinC cosC : ℚ → ℚ) (x y sx cx : VarType)
    (scy : SinCosVars) (M : SinCosMap) (flag : Bool) (hxy : x ≠ y)
    (hx : scmFind M x = some ⟨sx, cx⟩) (_hy : scmFind M y = some scy) :
    sinTP sinC cosC ⟨⟨[⟨1, [⟨x, 1⟩, ⟨y, 1⟩]⟩], flag⟩, M⟩ =
      .ok ⟨⟨[⟨1, [⟨sx, 1⟩, ⟨y, 1⟩]⟩], flag⟩, M⟩ := by
  simp [sinTP, trigN, Polynomial.getDegree, Monomial.getDegree, hx,
        Polynomial.subs, Ne.symm hxy]

theorem string_mk_toList (l : List Char) : (String.mk l).toList = l := rfl

theorem strchrAux_mem :
    ∀ (l : List Char) (c : Char), c ∈ l →
    ∃ o, strchrAux l c = some o ∧ o < l.length ∧ l[o]? = some c := by
  intro l
  induction l with
  | nil => intro c hc; exact absurd hc (List.not_mem_nil c)
  | cons a as ih =>
    intro c hc
    by_cases h : c = a
    · exact ⟨0, by simp [strchrAux, h], by simp, by simp [h]⟩
    · have hc' : c ∈ as := by
        rcases List.mem_cons.mp hc with h0 | h0
        · exact absurd h0 h
        · exact h0
      obtain ⟨o, ho, holt, hog⟩ := ih c hc'
      exact ⟨o + 1, by simp [strchrAux, h, ho], by simp; omega, by simpa using hog⟩

theorem strchr_mem (c : Char) (hc : c ∈ kNameChars) :
    ∃ o, strchrIndex c = some o ∧ o ≤ 29 ∧ (kNameChars[o]?).getD '@' = c := by
  obtain ⟨o, ho, holt, hog⟩ := strchrAux_mem kNameChars c hc
  have hlen : kNameChars.length = 30 := rfl
  refine ⟨o, ho, by omega, ?_⟩
  rw [hog]
  rfl

theorem encodeNamePart_nil : encodeNamePart [] = some 0 := rfl

theorem encodeNamePart_cons (c : Char) (rest : List Char) :
    encodeNamePart (c :: rest) =
      match strchrIndex c, encodeNamePart rest with
      | some o, some r => some ((o + 1) * 31 ^ rest.length + r)
      | _, _ => none := rfl

theorem decode_eval (np mdec : Nat) (cs : List Char) (hnp : np ≤ 923520)
    (hcs : (([np / 29791 % 31, np / 961 % 31, np / 31 % 31, np % 31].filter
        (fun d => decide (0 < d))).map (fun d => kNameChars.getD (d - 1) '@')) = cs)
    (hne : cs ≠ []) :
    idToVariableName (2 * (np + 923521 * mdec)) =
      String.mk cs ++ Nat.repr (mdec + 1) := by
  have e1 : 2 * (np + 923521 * mdec) / 2 % kMaxNamePart = np := by
    simp only [kMaxNamePart]; omega
  have e2 : 2 * (np + 923521 * mdec) / 2 / kMaxNamePart = mdec := by
    simp only [kMaxNamePart]; omega
  have hemp : cs.isEmpty = false := by
    cases cs with
    | nil => exact absurd rfl hne
    | cons a as => rfl
  simp only [idToVariableName, e1, e2, hcs, hemp]
  simp

theorem derivMono_integNonconst (c : ℚ) (v : VarType) (k : Nat)
    (ts : List Term) (hk : 1 ≤ k) :
    derivMono 1 ⟨c / ((k : ℚ) + 1), ⟨v, k + 1⟩ :: ts⟩ =
      some ⟨c, ⟨v, k⟩ :: ts⟩ := by
  have hne : ((k : ℚ) + 1) ≠ 0 := by positivity
  simp [derivMono, derivMonoLoop, show ¬(k < 1) by omega]
  exact div_mul_cancel₀ c hne

theorem derivMono_integConst (c : ℚ) (v : VarType) :
    derivMono 1 ⟨c, [⟨v, 1⟩]⟩ = some ⟨c, []⟩ := by
  simp [derivMono, derivMonoLoop]

theorem integLoop_roundtrip :
    ∀ (pending done : List Monomial),
    (∀ m ∈ pending, ∀ t ∈ m.terms, 1 ≤ t.var ∧ 1 ≤ t.power) →
    (∀ m ∈ done, ∀ t ∈ m.terms, 1 ≤ t.var) →
    (∃ m ∈ done ++ pending, m.terms ≠ []) →
    ∃ out, integLoop done pending = .ok out ∧
      out.filterMap (derivMono 1) = done.filterMap (derivMono 1) ++ pending := by
  intro pending
  induction pending with
  | nil =>
    intro done _ _ _
    exact ⟨done, by simp [integLoop], by simp⟩
  | cons m rest ih =>
    intro done hp hd hex
    have hpm := hp m (List.mem_cons_self m rest)
    have hp' : ∀ mm ∈ rest, ∀ t ∈ mm.terms, 1 ≤ t.var ∧ 1 ≤ t.power :=
      fun mm hm => hp mm (List.mem_cons_of_mem m hm)
    cases hterms : m.terms with
    | cons t ts =>
      have htmem : t ∈ m.terms := by rw [hterms]; exact List.mem_cons_self t ts
      have hstep : integLoop done (m :: rest) =
          integLoop
            (done ++ [⟨m.coefficient / ((t.power : ℚ) + 1), ⟨t.var, t.power + 1⟩ :: ts⟩])
            rest := by
        simp [integLoop, hterms]
      have hd' : ∀ mm ∈ done ++
            [Monomial.mk (m.coefficient / ((t.power : ℚ) + 1)) (⟨t.var, t.power + 1⟩ :: ts)],
          ∀ u ∈ mm.terms, 1 ≤ u.var := by
        intro mm hm u hu
        rcases List.mem_append.mp hm with hin | hin
        · exact hd mm hin u hu
        · rcases List.mem_singleton.mp hin with rfl
          rcases List.mem_cons.mp hu with rfl | hu2
          · exact (hpm t htmem).1
          · exact (hpm u (by rw [hterms]; exact List.mem_cons_of_mem t hu2)).1
      have hex' : ∃ mm ∈ (done ++
            [Monomial.mk (m.coefficient / ((t.power : ℚ) + 1)) (⟨t.var, t.power + 1⟩ :: ts)]) ++
            rest, mm.terms ≠ [] := by
        refine ⟨Monomial.mk (m.coefficient / ((t.power : ℚ) + 1)) (⟨t.var, t.power + 1⟩ :: ts),
          ?_, by simp⟩
        simp
      obtain ⟨out, hout, hfm⟩ := ih _ hp' hd' hex'
      refine ⟨out, hstep.trans hout, ?_⟩
      rw [hfm, List.filterMap_append]
      have hDM := derivMono_integNonconst m.coefficient t.var t.power ts (hpm t htmem).2
      have hteta : Term.mk t.var t.power = t := rfl
      have hm : m = Monomial.mk m.coefficient (t :: ts) := by rw [← hterms]
      simp only [List.filterMap_cons, List.filterMap_nil, hDM, hteta]
      conv_rhs => rw [hm]
      simp
    | nil =>
      obtain ⟨mb, hmb_mem, hmb_ne⟩ := hex
      have hsome : ((done ++ m :: rest).find? (fun mm => !mm.terms.isEmpty)).isSome := by
        rw [List.find?_isSome]
        exact ⟨mb, hmb_mem, by simpa using hmb_ne⟩
      obtain ⟨mb0, hfind⟩ := Option.isSome_iff_exists.mp hsome
      have hne0 : mb0.terms ≠ [] := by simpa using List.find?_some hfind
      have hmem0 : mb0 ∈ done ++ m :: rest := List.mem_of_find?_eq_some hfind
      obtain ⟨u, us, hu⟩ : ∃ u us, mb0.terms = u :: us := by
        cases h : mb0.terms with
        | nil => exact absurd h hne0
        | cons a as => exact ⟨a, as, rfl⟩
      have humem : u ∈ mb0.terms := by rw [hu]; exact List.mem_cons_self u us
      have hvar : 1 ≤ u.var := by
        rcases List.mem_append.mp hmem0 with hin | hin
        · exact hd mb0 hin u humem
        · rcases List.mem_cons.mp hin with rfl | hin2
          · exact absurd hterms hne0
          · exact (hp mb0 (List.mem_cons_of_mem m hin2) u humem).1
      have hv : integFindVar (done ++ m :: rest) = u.var := by
        simp [integFindVar, hfind, hu]
      have hne0' : ¬(u.var = 0) := Nat.pos_iff_ne_zero.mp hvar
      have hstep : integLoop done (m :: rest) =
          integLoop (done ++ [⟨m.coefficient, [⟨u.var, 1⟩]⟩]) rest := by
        simp [integLoop, hterms, hv, hne0']
      have hd' : ∀ mm ∈ done ++ [Monomial.mk m.coefficient [⟨u.var, 1⟩]],
          ∀ w ∈ mm.terms, 1 ≤ w.var := by
        intro mm hm w hw
        rcases List.mem_append.mp hm with hin | hin
        · exact hd mm hin w hw
        · rcases List.mem_singleton.mp hin with rfl
          rcases List.mem_singleton.mp hw with rfl
          exact hvar
      have hex' : ∃ mm ∈ (done ++ [Monomial.mk m.coefficient [⟨u.var, 1⟩]]) ++ rest,
          mm.terms ≠ [] := by
        refine ⟨Monomial.mk m.coefficient [⟨u.var, 1⟩], ?_, by simp⟩
        simp
      obtain ⟨out, hout, hfm⟩ := ih _ hp' hd' hex'
      refine ⟨out, hstep.trans hout, ?_⟩
      rw [hfm, List.filterMap_append]
      have hm : m = Monomial.mk m.coefficient [] := by rw [← hterms]
      simp only [List.filterMap_cons, List.filterMap_nil,
        derivMono_integConst m.coefficient u.var]
      conv_rhs => rw [hm]
      simp

/-- Claim C7 (amended): for every polynomial whose univariate flag is
set, whose term variables and powers are all at least 1, and which has
at least one non-constant monomial (so that `integral` can attach its
synthesized linear term), differentiating the integral returns exactly
the original polynomial — in particular the dense coefficient vectors
agree, here even without any tolerance. -/
theorem claim_C7_amended (p : Polynomial) (c : ℚ)
    (hu : p.is_univariate = true)
    (hwf : ∀ m ∈ p.monomials, ∀ t ∈ m.terms, 1 ≤ t.var ∧ 1 ≤ t.power)
    (hex : ∃ m ∈ p.monomials, m.terms ≠ []) :
    (p.integral c).bind (fun q => q.derivative 1) = .ok p := by
  obtain ⟨out, hout, hfm⟩ :=
    integLoop_roundtrip p.monomials [] hwf (by simp) (by simpa using hex)
  simp only [List.filterMap_nil, List.nil_append] at hfm
  have hstep : p.integral c = .ok ⟨out ++ [⟨c, []⟩], true⟩ := by
    simp [Polynomial.integral, hu, hout, Except.map]
  rw [hstep]
  show Polynomial.derivative ⟨out ++ [⟨c, []⟩], true⟩ 1 = .ok p
  have : (⟨out ++ [⟨c, []⟩], true⟩ : Polynomial).monomials.filterMap (derivMono 1) =
      p.monomials := by
    simp [List.filterMap_append, hfm, derivMono]
  simp [Polynomial.derivative, this]
  cases p with
  | mk ms fl =>
    simp at hu
    simp [hu]

theorem claim_C7_witness :
    ((⟨[⟨1, [⟨2, 1⟩]⟩, ⟨5, []⟩], true⟩ : Polynomial).is_univariate = true) ∧
    (∀ m ∈ (⟨[⟨1, [⟨2, 1⟩]⟩, ⟨5, []⟩], true⟩ : Polynomial).monomials,
      ∀ t ∈ m.terms, 1 ≤ t.var ∧ 1 ≤ t.power) ∧
    (∃ m ∈ (⟨[⟨1, [⟨2, 1⟩]⟩, ⟨5, []⟩], true⟩ : Polynomial).monomials,
      m.terms ≠ []) ∧
    ((⟨[⟨1, [⟨2, 1⟩]⟩, ⟨5, []⟩], true⟩ : Polynomial).integral 3).bind
        (fun q => q.derivative 1) =
      .ok ⟨[⟨1, [⟨2, 1⟩]⟩, ⟨5, []⟩], true⟩ :=
  ⟨rfl, by decide, by decide,
   claim_C7_amended ⟨[⟨1, [⟨2, 1⟩]⟩, ⟨5, []⟩], true⟩ 3 rfl (by decide) (by decide)⟩

/-- Claim C6: encoding any valid variable name (1 to 4 characters from
the 30-character alphabet) together with any index `m` between 1 and the
maximum representable index, and then decoding the resulting identifier,
recovers exactly the original base name with the original index appended
(in particular "x" with index 1 round-trips to "x1"). -/
theorem claim_C6 (name : String) (m : Nat)
    (hmem : ∀ c ∈ name.toList, c ∈ kNameChars)
    (hlen1 : 1 ≤ name.toList.length) (hlen4 : name.toList.length ≤ 4)
    (hm1 : 1 ≤ m) (hm2 : m ≤ maxId) :
    (variableNameToId name m).map idToVariableName =
      .ok (name ++ Nat.repr m) := by
  have g2 : ¬(m > maxId) := by omega
  have g3 : ¬(m < 1) := by omega
  have hmm : m - 1 + 1 = m := by omega
  obtain ⟨data⟩ := name
  rw [string_mk_toList] at hmem hlen1 hlen4
  rcases data with _ | ⟨c0, _ | ⟨c1, _ | ⟨c2, _ | ⟨c3, _ | ⟨c4, rest⟩⟩⟩⟩⟩
  · simp at hlen1
  · obtain ⟨o0, hs0, hle0, hg0⟩ := strchr_mem c0 (hmem c0 (by simp))
    have henc : encodeNamePart [c0] = some (o0 + 1) := by
      rw [encodeNamePart_cons, hs0, encodeNamePart_nil]
      norm_num
    have g1 : ¬(o0 + 1 > kMaxNamePart) := by
      simp only [kMaxNamePart]; omega
    have hq : variableNameToId (String.mk [c0]) m =
        .ok (2 * (o0 + 1 + 923521 * (m - 1))) := by
      simp only [variableNameToId, string_mk_toList, henc, kMaxNamePart] at g1 ⊢
      rw [if_neg g1, if_neg g2, if_neg g3]
    have e0 : (o0 + 1) / 29791 % 31 = 0 := by omega
    have e1 : (o0 + 1) / 961 % 31 = 0 := by omega
    have e2 : (o0 + 1) / 31 % 31 = 0 := by omega
    have e3 : (o0 + 1) % 31 = o0 + 1 := by omega
    have hcs : (([(o0 + 1) / 29791 % 31, (o0 + 1) / 961 % 31,
          (o0 + 1) / 31 % 31, (o0 + 1) % 31].filter
          (fun d => decide (0 < d))).map (fun d => kNameChars.getD (d - 1) '@')) =
        [c0] := by
      rw [e0, e1, e2, e3]
      simp [List.filter, hg0]
    have hdec := decode_eval (o0 + 1) (m - 1) [c0] (by omega) hcs (by simp)
    rw [hmm] at hdec
    rw [hq]
    simp only [Except.map]
    rw [hdec]
  · obtain ⟨o0, hs0, hle0, hg0⟩ := strchr_mem c0 (hmem c0 (by simp))
    obtain ⟨o1, hs1, hle1, hg1⟩ := strchr_mem c1 (hmem c1 (by simp))
    have henc1 : encodeNamePart [c1] = some (o1 + 1) := by
      rw [encodeNamePart_cons, hs1, encodeNamePart_nil]
      norm_num
    have henc : encodeNamePart [c0, c1] = some ((o0 + 1) * 31 + (o1 + 1)) := by
      rw [encodeNamePart_cons, hs0, henc1]
      norm_num
    have g1 : ¬((o0 + 1) * 31 + (o1 + 1) > kMaxNamePart) := by
      simp only [kMaxNamePart]; omega
    have hq : variableNameToId (String.mk [c0, c1]) m =
        .ok (2 * ((o0 + 1) * 31 + (o1 + 1) + 923521 * (m - 1))) := by
      simp only [variableNameToId, string_mk_toList, henc, kMaxNamePart] at g1 ⊢
      rw [if_neg g1, if_neg g2, if_neg g3]
    have e0 : ((o0 + 1) * 31 + (o1 + 1)) / 29791 % 31 = 0 := by omega
    have e1 : ((o0 + 1) * 31 + (o1 + 1)) / 961 % 31 = 0 := by omega
    have e2 : ((o0 + 1) * 31 + (o1 + 1)) / 31 % 31 = o0 + 1 := by omega
    have e3 : ((o0 + 1) * 31 + (o1 + 1)) % 31 = o1 + 1 := by omega
    have hcs : ((([((o0 + 1) * 31 + (o1 + 1)) / 29791 % 31,
          ((o0 + 1) * 31 + (o1 + 1)) / 961 % 31,
          ((o0 + 1) * 31 + (o1 + 1)) / 31 % 31,
          ((o0 + 1) * 31 + (o1 + 1)) % 31].filter
          (fun d => decide (0 < d))).map (fun d => kNameChars.getD (d - 1) '@')) =
        [c0, c1]) := by
      rw [e0, e1, e2, e3]
      simp [List.filter, hg0, hg1]
    have hdec := decode_eval ((o0 + 1) * 31 + (o1 + 1)) (m - 1) [c0, c1]
      (by omega) hcs (by simp)
    rw [hmm] at hdec
    rw [hq]
    simp only [Except.map]
    rw [hdec]
  · obtain ⟨o0, hs0, hle0, hg0⟩ := strchr_mem c0 (hmem c0 (by simp))
    obtain ⟨o1, hs1, hle1, hg1⟩ := strchr_mem c1 (hmem c1 (by simp))
    obtain ⟨o2, hs2, hle2, hg2c⟩ := strchr_mem c2 (hmem c2 (by simp))
    have henc2 : encodeNamePart [c2] = some (o2 + 1) := by
      rw [encodeNamePart_cons, hs2, encodeNamePart_nil]
      norm_num
    have henc1 : encodeNamePart [c1, c2] = some ((o1 + 1) * 31 + (o2 + 1)) := by
      rw [encodeNamePart_cons, hs1, henc2]
      norm_num
    have henc : encodeNamePart [c0, c1, c2] =
        some ((o0 + 1) * 961 + ((o1 + 1) * 31 + (o2 + 1))) := by
      rw [encodeNamePart_cons, hs0, henc1]
      norm_num
    have g1 : ¬((o0 + 1) * 961 + ((o1 + 1) * 31 + (o2 + 1)) > kMaxNamePart) := by
      simp only [kMaxNamePart]; omega
    have hq : variableNameToId (String.mk [c0, c1, c2]) m =
        .ok (2 * ((o0 + 1) * 961 + ((o1 + 1) * 31 + (o2 + 1)) + 923521 * (m - 1))) := by
      simp only [variableNameToId, string_mk_toList, henc, kMaxNamePart] at g1 ⊢
      rw [if_neg g1, if_neg g2, if_neg g3]
    have e0 : ((o0 + 1) * 961 + ((o1 + 1) * 31 + (o2 + 1))) / 29791 % 31 = 0 := by
      omega
    have e1 : ((o0 + 1) * 961 + ((o1 + 1) * 31 + (o2 + 1))) / 961 % 31 = o0 + 1 := by
      omega
    have e2 : ((o0 + 1) * 961 + ((o1 + 1) * 31 + (o2 + 1))) / 31 % 31 = o1 + 1 := by
      omega
    have e3 : ((o0 + 1) * 961 + ((o1 + 1) * 31 + (o2 + 1))) % 31 = o2 + 1 := by
      omega
    have hcs : ((([((o0 + 1) * 961 + ((o1 + 1) * 31 + (o2 + 1))) / 29791 % 31,
          ((o0 + 1) * 961 + ((o1 + 1) * 31 + (o2 + 1))) / 961 % 31,
          ((o0 + 1) * 961 + ((o1 + 1) * 31 + (o2 + 1))) / 31 % 31,
          ((o0 + 1) * 961 + ((o1 + 1) * 31 + (o2 + 1))) % 31].filter
          (fun d => decide (0 < d))).map (fun d => kNameChars.getD (d - 1) '@')) =
        [c0, c1, c2]) := by
      rw [e0, e1, e2, e3]
      simp [List.filter, hg0, hg1, hg2c]
    have hdec := decode_eval ((o0 + 1) * 961 + ((o1 + 1) * 31 + (o2 + 1))) (m - 1)
      [c0, c1, c2] (by omega) hcs (by simp)
    rw [hmm] at hdec
    rw [hq]
    simp only [Except.map]
    rw [hdec]
  · obtain ⟨o0, hs0, hle0, hg0⟩ := strchr_mem c0 (hmem c0 (by simp))
    obtain ⟨o1, hs1, hle1, hg1⟩ := strchr_mem c1 (hmem c1 (by simp))
    obtain ⟨o2, hs2, hle2, hg2c⟩ := strchr_mem c2 (hmem c2 (by simp))
    obtain ⟨o3, hs3, hle3, hg3c⟩ := strchr_mem c3 (hmem c3 (by simp))
    have henc3 : encodeNamePart [c3] = some (o3 + 1) := by
      rw [encodeNamePart_cons, hs3, encodeNamePart_nil]
      norm_num
    have henc2 : encodeNamePart [c2, c3] = some ((o2 + 1) * 31 + (o3 + 1)) := by
      rw [encodeNamePart_cons, hs2, henc3]
      norm_num
    have henc1 : encodeNamePart [c1, c2, c3] =
        some ((o1 + 1) * 961 + ((o2 + 1) * 31 + (o3 + 1))) := by
      rw [encodeNamePart_cons, hs1, henc2]
      norm_num
    have henc : encodeNamePart [c0, c1, c2, c3] =
        some ((o0 + 1) * 29791 + ((o1 + 1) * 961 + ((o2 + 1) * 31 + (o3 + 1)))) := by
      rw [encodeNamePart_cons, hs0, henc1]
      norm_num
    have g1 : ¬((o0 + 1) * 29791 + ((o1 + 1) * 961 + ((o2 + 1) * 31 + (o3 + 1))) >
        kMaxNamePart) := by
      simp only [kMaxNamePart]; omega
    have hq : variableNameToId (String.mk [c0, c1, c2, c3]) m =
        .ok (2 * ((o0 + 1) * 29791 + ((o1 + 1) * 961 + ((o2 + 1) * 31 + (o3 + 1))) +
          923521 * (m - 1))) := by
      simp only [variableNameToId, string_mk_toList, henc, kMaxNamePart] at g1 ⊢
      rw [if_neg g1, if_neg g2, if_neg g3]
    have e0 : ((o0 + 1) * 29791 + ((o1 + 1) * 961 + ((o2 + 1) * 31 + (o3 + 1)))) /
        29791 % 31 = o0 + 1 := by omega
    have e1 : ((o0 + 1) * 29791 + ((o1 + 1) * 961 + ((o2 + 1) * 31 + (o3 + 1)))) /
        961 % 31 = o1 + 1 := by omega
    have e2 : ((o0 + 1) * 29791 + ((o1 + 1) * 961 + ((o2 + 1) * 31 + (o3 + 1)))) /
        31 % 31 = o2 + 1 := by omega
    have e3 : ((o0 + 1) * 29791 + ((o1 + 1) * 961 + ((o2 + 1) * 31 + (o3 + 1)))) %
        31 = o3 + 1 := by omega
    have hcs : ((([((o0 + 1) * 29791 + ((o1 + 1) * 961 + ((o2 + 1) * 31 + (o3 + 1)))) /
            29791 % 31,
          ((o0 + 1) * 29791 + ((o1 + 1) * 961 + ((o2 + 1) * 31 + (o3 + 1)))) / 961 % 31,
          ((o0 + 1) * 29791 + ((o1 + 1) * 961 + ((o2 + 1) * 31 + (o3 + 1)))) / 31 % 31,
          ((o0 + 1) * 29791 + ((o1 + 1) * 961 + ((o2 + 1) * 31 + (o3 + 1)))) % 31].filter
          (fun d => decide (0 < d))).map (fun d => kNameChars.getD (d - 1) '@')) =
        [c0, c1, c2, c3]) := by
      rw [e0, e1, e2, e3]
      simp [List.filter, hg0, hg1, hg2c, hg3c]
    have hdec := decode_eval
      ((o0 + 1) * 29791 + ((o1 + 1) * 961 + ((o2 + 1) * 31 + (o3 + 1)))) (m - 1)
      [c0, c1, c2, c3] (by omega) hcs (by simp)
    rw [hmm] at hdec
    rw [hq]
    simp only [Except.map]
    rw [hdec]
  · simp at hlen4

theorem claim_C6_witness :
    (∀ c ∈ "x".toList, c ∈ kNameChars) ∧
    1 ≤ "x".toList.length ∧ "x".toList.length ≤ 4 ∧
    (1 : Nat) ≤ 1 ∧ 1 ≤ maxId ∧
    (variableNameToId "x" 1).map idToVariableName = .ok ("x" ++ Nat.repr 1) :=
  ⟨by decide, by decide, by decide, by decide, by decide,
   claim_C6 "x" 1 (by decide) (by decide) (by decide) (by decide) (by decide)⟩

theorem claim_C10_witness :
    (2 : VarType) ≠ 8 ∧
    scmFind [(2, SinCosVars.mk 4 6), (8, SinCosVars.mk 10 12)] 2 =
      some (SinCosVars.mk 4 6) ∧
    scmFind [(2, SinCosVars.mk 4 6), (8, SinCosVars.mk 10 12)] 8 =
      some (SinCosVars.mk 10 12) ∧
    sinTP (fun _ => 0) (fun _ => 0)
        ⟨⟨[⟨1, [⟨2, 1⟩, ⟨8, 1⟩]⟩], false⟩,
         [(2, SinCosVars.mk 4 6), (8, SinCosVars.mk 10 12)]⟩ =
      .ok ⟨⟨[⟨1, [⟨4, 1⟩, ⟨8, 1⟩]⟩], false⟩,
         [(2, SinCosVars.mk 4 6), (8, SinCosVars.mk 10 12)]⟩ :=
  ⟨by decide, rfl, rfl,
   claim_C10 (fun _ => 0) (fun _ => 0) 2 8 4 6 (SinCosVars.mk 10 12)
     [(2, SinCosVars.mk 4 6), (8, SinCosVars.mk 10 12)] false (by decide)
     rfl rfl⟩

end Drake
